import Mathlib

/-!
Verification of the mcreversi board model and MCTS tree (src/mcreversi.cpp)
against its natural-language specification.

The board is an 8x8 grid of three-valued cells stored row-major in a
64-element list (C++ `std::array<Cell, 64>`).  All functions below are
direct shallow embeddings of the corresponding C++ members of `Board`,
`Node` and the `searchMove` driver; C++ `float` arithmetic is modelled
exactly over `Rat` (for node statistics) and over `Real` (for the UCB
formula, which uses `sqrt`/`log`).  C++ `assert` failures (process
aborts) are modelled as `Option.none` results.
-/

/-- Cell of the board: `Cell::BLACK`, `Cell::WHITE`, `Cell::EMPTY` in the C++ enum. -/
inductive Cell where
  | BLACK
  | WHITE
  | EMPTY
deriving DecidableEq, Repr

/-- Side to move: the C++ `Player` enum. -/
inductive Player where
  | BLACK
  | WHITE
deriving DecidableEq, Repr

/-- `BOARD_SIZE = 8` in the C++ source. -/
def BOARD_SIZE : Nat := 8

/-- `BOARD_CELLS = BOARD_SIZE * BOARD_SIZE = 64` in the C++ source. -/
def BOARD_CELLS : Nat := BOARD_SIZE * BOARD_SIZE

/-- A board: the C++ `std::array<Cell, BOARD_CELLS> cells_`, row-major
(`cells_[x + y * BOARD_SIZE]`). -/
def Board : Type := { l : List Cell // l.length = BOARD_CELLS }

instance : DecidableEq Board :=
  fun a b => decidable_of_iff (a.val = b.val) Subtype.ext_iff.symm

namespace Board

/-- Read access `Board::at(x, y) = cells_.at(x + y * BOARD_SIZE)`.  All uses in
the embedded code are guarded by `isInBound`, so the `getD` default is never hit
on the paths the C++ code exercises. -/
def atXY (b : Board) (x y : Nat) : Cell :=
  b.val.getD (x + y * BOARD_SIZE) Cell.EMPTY

/-- Write access `Board::at(x, y) = c` (the non-const `at` used as an lvalue). -/
def setXY (b : Board) (x y : Nat) (c : Cell) : Board :=
  ⟨b.val.set (x + y * BOARD_SIZE) c, by rw [List.length_set]; exact b.property⟩

/-- `Board::isInBound(x, y, dx, dy)`: the C++ guards against `size_t`
underflow of `x + dx` / `y + dy` and then checks the upper bound. -/
def isInBound (x y : Nat) (dx dy : Int) : Bool :=
  if dx < 0 ∧ x < (-dx).toNat then false
  else if dy < 0 ∧ y < (-dy).toNat then false
  else decide ((x : Int) + dx < (BOARD_SIZE : Int) ∧ (y : Int) + dy < (BOARD_SIZE : Int))

/-- Offset coordinate `x + n * dx` as computed by the C++ in `size_t`
arithmetic; meaningful exactly when `isInBound` holds. -/
def offN (x : Nat) (d : Int) : Nat := ((x : Int) + d).toNat

/-- `Board::isFilled()`: no `Cell::EMPTY` cell remains. -/
def isFilled (b : Board) : Bool :=
  b.val.all (fun c => decide (c ≠ Cell.EMPTY))

/-- Number of `Cell::BLACK` cells (the counting loop of `getBlackOccupation`). -/
def countBlack (b : Board) : Nat :=
  b.val.countP (fun c => decide (c = Cell.BLACK))

/-- `Board::getBlackOccupation()`: fraction of the 64 cells that are Black. -/
def getBlackOccupation (b : Board) : Rat :=
  (countBlack b : Rat) / (BOARD_CELLS : Rat)

/-- Cell-wise colour swap used by `Board::flipPlayer()`. -/
def flipCell : Cell → Cell
  | Cell.BLACK => Cell.WHITE
  | Cell.WHITE => Cell.BLACK
  | Cell.EMPTY => Cell.EMPTY

/-- `Board::flipPlayer()`: swap Black and White everywhere, keep Empty. -/
def flipPlayer (b : Board) : Board :=
  ⟨b.val.map flipCell, by rw [List.length_map]; exact b.property⟩

/-- `Board::flipped()`: a colour-swapped copy. -/
def flipped (b : Board) : Board := flipPlayer b

/-- The direction-scanning loop inside `Board::put`: starting at step `n`,
walk outward while in bounds; stop at the first non-White cell.  Returns the
final `n` together with `blackFound` (the C++ flag is set exactly when the
loop reads a Black cell, which also terminates it).  The fuel argument bounds
the loop; `BOARD_CELLS` steps are more than the 8-cell-wide board ever needs. -/
def scanAux (b : Board) (x y : Nat) (dx dy : Int) : Nat → Nat → Nat × Bool
  | 0, n => (n, false)
  | fuel + 1, n =>
    if isInBound x y ((n : Int) * dx) ((n : Int) * dy) then
      if b.atXY (offN x ((n : Int) * dx)) (offN y ((n : Int) * dy)) = Cell.WHITE then
        scanAux b x y dx dy fuel (n + 1)
      else (n, decide (b.atXY (offN x ((n : Int) * dx)) (offN y ((n : Int) * dy)) = Cell.BLACK))
    else (n, false)

/-- One direction scan of `Board::put`, started as in the C++ at `n = 1`. -/
def scanDir (b : Board) (x y : Nat) (dx dy : Int) : Nat × Bool :=
  scanAux b x y dx dy BOARD_CELLS 1

/-- One write of the capture loop of `Board::put`:
`at(x + i * dx, y + i * dy) = Cell::BLACK`. -/
def flipStep (x y : Nat) (dx dy : Int) (c : Board) (i : Nat) : Board :=
  c.setXY (offN x ((i : Int) * dx)) (offN y ((i : Int) * dy)) Cell.BLACK

/-- The capture loop of `Board::put`: `for (size_t i = 1; i < n; ++i)` turns
every cell of the run Black. -/
def flipRun (b : Board) (x y : Nat) (dx dy : Int) (n : Nat) : Board :=
  (List.range' 1 (n - 1)).foldl (flipStep x y dx dy) b

/-- The eight compass directions in the order the C++ double loop visits them
(`dx` outer from -1 to 1, `dy` inner, skipping `(0,0)`). -/
def dirs : List (Int × Int) :=
  [(-1, -1), (-1, 0), (-1, 1), (0, -1), (0, 1), (1, -1), (1, 0), (1, 1)]

/-- Body of the direction loop of `Board::put`: scan, and on a capturing run
(`blackFound && n > 1`) set `valid` and flip the run. -/
def putDir (x y : Nat) (acc : Bool × Board) (d : Int × Int) : Bool × Board :=
  let s := scanDir acc.2 x y d.1 d.2
  if s.2 = true ∧ 1 < s.1 then (true, flipRun acc.2 x y d.1 d.2 s.1) else acc

/-- `Board::put(x, y)` (the spec's `tryPlace`): returns the C++ return value
together with the board as left by the call.  Note that the C++ writes
`at(x, y) = Cell::BLACK` before scanning the directions and never undoes it. -/
def put (b : Board) (x y : Nat) : Bool × Board :=
  if isInBound x y 0 0 = false ∨ b.atXY x y ≠ Cell.EMPTY then (false, b)
  else dirs.foldl (putDir x y) (false, b.setXY x y Cell.BLACK)

/-- The 64 positions in the order `Board::getNextStates` tries them
(`y` outer, `x` inner). -/
def positionOrder : List (Nat × Nat) :=
  (List.range BOARD_CELLS).map (fun i => (i % BOARD_SIZE, i / BOARD_SIZE))

/-- `Board::getNextStates()` (the spec's `legalSuccessors`): for each position,
try `put` on a scratch copy; on success keep the resulting board colour-flipped. -/
def getNextStates (b : Board) : List Board :=
  positionOrder.filterMap (fun p =>
    let r := put b p.1 p.2
    if r.1 = true then some (flipPlayer r.2) else none)

end Board

/-- `parseCell`: the C++ switches on `tolower(chr)`. -/
def parseCell (c : Char) : Option Cell :=
  if c.toLower = 'x' then some Cell.BLACK
  else if c.toLower = 'o' then some Cell.WHITE
  else if c.toLower = '.' then some Cell.EMPTY
  else none

/-- The `Board(const std::string&)` constructor: parse each character in order;
any unrecognised character or a length other than 64 aborts (modelled as `none`). -/
def boardFromLayout (l : List Char) : Option Board :=
  match l.mapM parseCell with
  | none => none
  | some cells => if h : cells.length = BOARD_CELLS then some ⟨cells, h⟩ else none

/-- The `INITIAL_BOARD` layout string from the C++ source. -/
def INITIAL_BOARD : List Char :=
  ("........" ++ "........" ++ "........" ++ "...OX..." ++ "...XO..." ++
   "........" ++ "........" ++ "........").toList

/-- The starting position (`Board current;` in `main`, built from `INITIAL_BOARD`). -/
def initialBoard : Board :=
  (boardFromLayout INITIAL_BOARD).getD ⟨List.replicate BOARD_CELLS Cell.EMPTY, by simp [BOARD_CELLS, BOARD_SIZE]⟩

/-- A completely filled board (all Black), used as a concrete terminal position. -/
def fullBoard : Board :=
  ⟨List.replicate BOARD_CELLS Cell.BLACK, by simp [BOARD_CELLS, BOARD_SIZE]⟩

/-- The five characters a layout string may contain. -/
def layoutChars : List Char := ['X', 'x', 'O', 'o', '.']

lemma isInBound_zero (x y : Nat) :
    Board.isInBound x y 0 0 = true ↔ (x < BOARD_SIZE ∧ y < BOARD_SIZE) := by
  simp only [Board.isInBound]
  norm_num

lemma parseCell_lower_upper (c : Char) (h : c ∈ layoutChars) :
    parseCell c.toLower = parseCell c.toUpper := by
  simp only [layoutChars, List.mem_cons, List.not_mem_nil, or_false] at h
  rcases h with rfl | rfl | rfl | rfl | rfl <;> decide

lemma mapM_parseCell_lower_upper (l : List Char) (h : ∀ c ∈ l, c ∈ layoutChars) :
    (l.map Char.toLower).mapM parseCell = (l.map Char.toUpper).mapM parseCell := by
  induction l with
  | nil => rfl
  | cons c l ih =>
    simp only [List.map_cons, List.mapM_cons]
    rw [parseCell_lower_upper c (h c (by simp)), ih (fun d hd => h d (by simp [hd]))]

/-- C10: `parseCell` accepts both cases of each stone letter ('X'/'x' give
Black, 'O'/'o' give White), and consequently building a board from the
lowercased layout string gives the same result as from the uppercased one. -/
theorem C10_parse_case_insensitive :
    parseCell 'X' = some Cell.BLACK ∧ parseCell 'x' = some Cell.BLACK ∧
    parseCell 'O' = some Cell.WHITE ∧ parseCell 'o' = some Cell.WHITE ∧
    ∀ l : List Char, (∀ c ∈ l, c ∈ layoutChars) →
      boardFromLayout (l.map Char.toLower) = boardFromLayout (l.map Char.toUpper) := by
  refine ⟨by decide, by decide, by decide, by decide, fun l h => ?_⟩
  unfold boardFromLayout
  rw [mapM_parseCell_lower_upper l h]

/-- Witness for C10 at the initial layout string. -/
theorem C10_witness :
    boardFromLayout (INITIAL_BOARD.map Char.toLower) =
      boardFromLayout (INITIAL_BOARD.map Char.toUpper) :=
  C10_parse_case_insensitive.2.2.2.2 INITIAL_BOARD (by decide)

/-- C8: `put` on an out-of-bounds or occupied cell returns `false` and keeps
the board unchanged (the C++ early-returns before any write). -/
theorem C8_reject_occupied_or_out_of_bounds (b : Board) (x y : Nat)
    (h : ¬(x < BOARD_SIZE ∧ y < BOARD_SIZE) ∨ b.atXY x y ≠ Cell.EMPTY) :
    Board.put b x y = (false, b) := by
  rw [Board.put, if_pos]
  rcases h with h | h
  · left
    rw [← Bool.not_eq_true, isInBound_zero]
    exact h
  · right
    exact h

/-- Witness for C8: placing on the occupied cell d4 of the opening board. -/
theorem C8_witness : Board.put initialBoard 3 3 = (false, initialBoard) :=
  C8_reject_occupied_or_out_of_bounds initialBoard 3 3 (by decide)

/-- C1 (code bug): at the in-bounds, Empty cell (0,0) of the opening board no
direction captures, so `put` returns `false`; but contrary to the claim the
board is mutated: the C++ writes the Black stone before scanning and never
removes it, so the returned board differs from the original at (0,0). -/
theorem C1_put_mutates_on_rejected_move :
    (0 < BOARD_SIZE ∧ 0 < BOARD_SIZE) ∧
    Board.atXY initialBoard 0 0 = Cell.EMPTY ∧
    (∀ d ∈ Board.dirs,
      ¬((Board.scanDir (initialBoard.setXY 0 0 Cell.BLACK) 0 0 d.1 d.2).2 = true ∧
        1 < (Board.scanDir (initialBoard.setXY 0 0 Cell.BLACK) 0 0 d.1 d.2).1)) ∧
    (Board.put initialBoard 0 0).1 = false ∧
    (Board.put initialBoard 0 0).2 ≠ initialBoard ∧
    Board.atXY (Board.put initialBoard 0 0).2 0 0 = Cell.BLACK := by decide

/-- C2 (counterexample): the boards returned by `getNextStates` from the
opening position do not have 3 Black cells; flipping turns the mover's 4
stones White, leaving only the single captured-then-flipped stone... in fact
each returned board has exactly 1 Black cell. -/
theorem C2_counterexample :
    ¬ ∀ b ∈ Board.getNextStates initialBoard, Board.countBlack b = 3 := by decide

/-- C2 (amended): from the opening position `getNextStates` returns exactly 4
boards; each has 4 Black cells before the colour flip (recovered by flipping
back) and 1 Black cell after the colour flip applied by `getNextStates`. -/
theorem C2_opening_successors :
    (Board.getNextStates initialBoard).length = 4 ∧
    (∀ b ∈ Board.getNextStates initialBoard, Board.countBlack (Board.flipPlayer b) = 4) ∧
    (∀ b ∈ Board.getNextStates initialBoard, Board.countBlack b = 1) := by decide

lemma List_getD_set_ne {α : Type} (l : List α) (i j : Nat) (a d : α) (h : i ≠ j) :
    (l.set i a).getD j d = l.getD j d := by
  by_cases hj : j < l.length
  · rw [List.getD_eq_getElem _ _ (by simpa using hj), List.getD_eq_getElem _ _ hj]
    exact List.getElem_set_ne h _
  · rw [List.getD_eq_default _ _ (by simpa using Nat.le_of_not_lt hj),
      List.getD_eq_default _ _ (Nat.le_of_not_lt hj)]

lemma atXY_eq_of_index_eq (b : Board) (u v w z : Nat)
    (h : u + v * BOARD_SIZE = w + z * BOARD_SIZE) : b.atXY u v = b.atXY w z := by
  unfold Board.atXY
  rw [h]

lemma atXY_setXY_ne (b : Board) (x y : Nat) (c : Cell) (u v : Nat)
    (h : x + y * BOARD_SIZE ≠ u + v * BOARD_SIZE) :
    (b.setXY x y c).atXY u v = b.atXY u v :=
  List_getD_set_ne _ _ _ _ _ h

lemma atXY_setXY_self (b : Board) (x y : Nat) (c : Cell)
    (hx : x < BOARD_SIZE) (hy : y < BOARD_SIZE) :
    (b.setXY x y c).atXY x y = c := by
  have hidx : x + y * BOARD_SIZE < BOARD_CELLS := by
    simp only [BOARD_SIZE, BOARD_CELLS] at hx hy ⊢
    omega
  unfold Board.atXY Board.setXY
  rw [List.getD_eq_getElem _ _ (by rw [List.length_set, b.property]; exact hidx)]
  exact List.getElem_set_self _

lemma atXY_setXY_or (b : Board) (x y : Nat) (c : Cell) (u v : Nat) :
    (b.setXY x y c).atXY u v = c ∨ (b.setXY x y c).atXY u v = b.atXY u v := by
  by_cases h : x + y * BOARD_SIZE = u + v * BOARD_SIZE
  · by_cases hlt : u + v * BOARD_SIZE < BOARD_CELLS
    · left
      unfold Board.atXY Board.setXY
      rw [List.getD_eq_getElem _ _ (by rw [List.length_set, b.property]; exact hlt)]
      rw [List.getElem_set]
      rw [if_pos h]
    · right
      unfold Board.atXY
      rw [List.getD_eq_default _ _ (by rw [(Board.setXY b x y c).property]; omega),
        List.getD_eq_default _ _ (by rw [b.property]; omega)]
  · right
    exact atXY_setXY_ne b x y c u v h

lemma atXY_flipPlayer (b : Board) (u v : Nat) :
    (Board.flipPlayer b).atXY u v = Board.flipCell (b.atXY u v) :=
  List.getD_map b.val Cell.EMPTY Board.flipCell

/-- Every cell the scan loop of `put` steps over (strictly before the stop
index) is White on the scanned board. -/
lemma scanAux_whites (b : Board) (x y : Nat) (dx dy : Int) :
    ∀ (fuel n0 i : Nat), n0 ≤ i → i < (Board.scanAux b x y dx dy fuel n0).1 →
      b.atXY (Board.offN x ((i : Int) * dx)) (Board.offN y ((i : Int) * dy)) = Cell.WHITE := by
  intro fuel
  induction fuel with
  | zero =>
    intro n0 i h1 h2
    simp only [Board.scanAux] at h2
    omega
  | succ fuel ih =>
    intro n0 i h1 h2
    rw [Board.scanAux] at h2
    by_cases hb : Board.isInBound x y ((n0 : Int) * dx) ((n0 : Int) * dy) = true
    · rw [if_pos hb] at h2
      by_cases hw :
          b.atXY (Board.offN x ((n0 : Int) * dx)) (Board.offN y ((n0 : Int) * dy)) = Cell.WHITE
      · rw [if_pos hw] at h2
        rcases Nat.eq_or_lt_of_le h1 with rfl | h1'
        · exact hw
        · exact ih (n0 + 1) i h1' h2
      · rw [if_neg hw] at h2
        simp only at h2
        omega
    · rw [if_neg hb] at h2
      simp only at h2
      omega

lemma foldl_flipStep_atXY_ne (x y : Nat) (dx dy : Int) (l : List Nat) :
    ∀ (c : Board) (u v : Nat),
      (∀ i ∈ l,
        Board.offN x ((i : Int) * dx) + Board.offN y ((i : Int) * dy) * BOARD_SIZE
          ≠ u + v * BOARD_SIZE) →
      (l.foldl (Board.flipStep x y dx dy) c).atXY u v = c.atXY u v := by
  induction l with
  | nil => intro c u v _; rfl
  | cons i l ih =>
    intro c u v h
    rw [List.foldl_cons]
    rw [ih _ u v (fun j hj => h j (by simp [hj]))]
    exact atXY_setXY_ne _ _ _ _ _ _ (h i (by simp))

lemma foldl_flipStep_black (x y : Nat) (dx dy : Int) (l : List Nat) :
    ∀ (c : Board) (u v : Nat), c.atXY u v = Cell.BLACK →
      (l.foldl (Board.flipStep x y dx dy) c).atXY u v = Cell.BLACK := by
  induction l with
  | nil => intro c u v h; exact h
  | cons i l ih =>
    intro c u v h
    rw [List.foldl_cons]
    apply ih
    rcases atXY_setXY_or c (Board.offN x ((i : Int) * dx)) (Board.offN y ((i : Int) * dy))
      Cell.BLACK u v with h' | h'
    · exact h'
    · rw [Board.flipStep, h', h]

/-- The direction loop of `put` never turns an Empty cell non-Empty: every
write targets either the placed stone's cell (before the loop) or a cell that
is currently White. -/
lemma foldl_putDir_empty (x y : Nat) (ds : List (Int × Int)) :
    ∀ (acc : Bool × Board) (u v : Nat), acc.2.atXY u v = Cell.EMPTY →
      (ds.foldl (Board.putDir x y) acc).2.atXY u v = Cell.EMPTY := by
  induction ds with
  | nil => intro acc u v h; exact h
  | cons d ds ih =>
    intro acc u v h
    rw [List.foldl_cons]
    apply ih
    unfold Board.putDir
    by_cases hc : (Board.scanDir acc.2 x y d.1 d.2).2 = true ∧
        1 < (Board.scanDir acc.2 x y d.1 d.2).1
    · rw [if_pos hc]
      show (Board.flipRun acc.2 x y d.1 d.2 (Board.scanDir acc.2 x y d.1 d.2).1).atXY u v
        = Cell.EMPTY
      rw [Board.flipRun]
      rw [foldl_flipStep_atXY_ne x y d.1 d.2 _ acc.2 u v ?_]
      · exact h
      · intro i hi heq
        rw [List.mem_range'_1] at hi
        rw [Board.scanDir] at hi hc
        have hwhite := scanAux_whites acc.2 x y d.1 d.2 BOARD_CELLS 1 i hi.1 (by omega)
        have := atXY_eq_of_index_eq acc.2 _ _ u v heq
        rw [hwhite, h] at this
        exact Cell.noConfusion this
    · rw [if_neg hc]
      exact h

lemma foldl_putDir_black (x y : Nat) (ds : List (Int × Int)) :
    ∀ (acc : Bool × Board) (u v : Nat), acc.2.atXY u v = Cell.BLACK →
      (ds.foldl (Board.putDir x y) acc).2.atXY u v = Cell.BLACK := by
  induction ds with
  | nil => intro acc u v h; exact h
  | cons d ds ih =>
    intro acc u v h
    rw [List.foldl_cons]
    apply ih
    unfold Board.putDir
    by_cases hc : (Board.scanDir acc.2 x y d.1 d.2).2 = true ∧
        1 < (Board.scanDir acc.2 x y d.1 d.2).1
    · rw [if_pos hc]
      show (Board.flipRun acc.2 x y d.1 d.2 (Board.scanDir acc.2 x y d.1 d.2).1).atXY u v
        = Cell.BLACK
      rw [Board.flipRun]
      exact foldl_flipStep_black x y d.1 d.2 _ acc.2 u v h
    · rw [if_neg hc]
      exact h

/-- A successful `put` implies the guard passed: the target was in bounds and Empty. -/
lemma put_success_conditions (b : Board) (x y : Nat) (h : (Board.put b x y).1 = true) :
    (x < BOARD_SIZE ∧ y < BOARD_SIZE) ∧ b.atXY x y = Cell.EMPTY := by
  by_cases hg : Board.isInBound x y 0 0 = false ∨ b.atXY x y ≠ Cell.EMPTY
  · rw [Board.put, if_pos hg] at h
    exact absurd h (by simp)
  · push_neg at hg
    refine ⟨?_, hg.2⟩
    rw [← isInBound_zero]
    cases hb : Board.isInBound x y 0 0
    · exact absurd hb hg.1
    · rfl

/-- After any `put` whose guard passed, the target cell holds a Black stone. -/
lemma put_black_at_target (b : Board) (x y : Nat)
    (hx : x < BOARD_SIZE) (hy : y < BOARD_SIZE) (he : b.atXY x y = Cell.EMPTY) :
    (Board.put b x y).2.atXY x y = Cell.BLACK := by
  have hguard : ¬(Board.isInBound x y 0 0 = false ∨ b.atXY x y ≠ Cell.EMPTY) := by
    rintro (h | h)
    · rw [(isInBound_zero x y).2 ⟨hx, hy⟩] at h
      exact Bool.noConfusion h
    · exact h he
  rw [Board.put, if_neg hguard]
  exact foldl_putDir_black x y Board.dirs _ x y (atXY_setXY_self b x y Cell.BLACK hx hy)

/-- `put` at `(x, y)` leaves every other Empty cell Empty. -/
lemma put_preserves_other_empty (b : Board) (x y u v : Nat)
    (hne : u + v * BOARD_SIZE ≠ x + y * BOARD_SIZE) (he : b.atXY u v = Cell.EMPTY) :
    (Board.put b x y).2.atXY u v = Cell.EMPTY := by
  rw [Board.put]
  by_cases hg : Board.isInBound x y 0 0 = false ∨ b.atXY x y ≠ Cell.EMPTY
  · rw [if_pos hg]
    exact he
  · rw [if_neg hg]
    exact foldl_putDir_empty x y Board.dirs _ u v
      (by rw [atXY_setXY_ne b x y Cell.BLACK u v (fun h => hne h.symm)]; exact he)

lemma positionOrder_bounds : ∀ p ∈ Board.positionOrder, p.1 < BOARD_SIZE ∧ p.2 < BOARD_SIZE := by
  decide

lemma positionOrder_nodup : Board.positionOrder.Nodup := by decide

/-- C5: every board produced by `getNextStates` comes from exactly one
successful `put` on a copy of the input followed by one colour flip, and the
returned list has no duplicates. -/
theorem C5_successor_shape (b : Board) :
    (∀ b' ∈ Board.getNextStates b, ∃ x y, x < BOARD_SIZE ∧ y < BOARD_SIZE ∧
      (Board.put b x y).1 = true ∧ b' = Board.flipPlayer (Board.put b x y).2) ∧
    (Board.getNextStates b).Nodup := by
  have hmem : ∀ (p : Nat × Nat) (b' : Board),
      (if (Board.put b p.1 p.2).1 = true
        then some (Board.flipPlayer (Board.put b p.1 p.2).2) else none) = some b' →
      (Board.put b p.1 p.2).1 = true ∧ b' = Board.flipPlayer (Board.put b p.1 p.2).2 := by
    intro p b' h
    by_cases hs : (Board.put b p.1 p.2).1 = true
    · rw [if_pos hs] at h
      exact ⟨hs, (Option.some_inj.1 h).symm⟩
    · rw [if_neg hs] at h
      exact absurd h (by simp)
  constructor
  · intro b' hb'
    rw [Board.getNextStates, List.mem_filterMap] at hb'
    obtain ⟨p, hp, hfp⟩ := hb'
    obtain ⟨hs, hflip⟩ := hmem p b' hfp
    obtain ⟨h1, h2⟩ := positionOrder_bounds p hp
    exact ⟨p.1, p.2, h1, h2, hs, hflip⟩
  · rw [Board.getNextStates]
    refine List.Nodup.filterMap ?_ positionOrder_nodup
    intro p q b' hbp hbq
    rw [Option.mem_def] at hbp hbq
    obtain ⟨hsp, hfp⟩ := hmem p b' hbp
    obtain ⟨hsq, hfq⟩ := hmem q b' hbq
    obtain ⟨⟨hpx, hpy⟩, hpe⟩ := put_success_conditions b p.1 p.2 hsp
    obtain ⟨⟨hqx, hqy⟩, hqe⟩ := put_success_conditions b q.1 q.2 hsq
    by_cases hidx : p.1 + p.2 * BOARD_SIZE = q.1 + q.2 * BOARD_SIZE
    · simp only [BOARD_SIZE] at hidx hpx hpy hqx hqy
      have h1 : p.1 = q.1 ∧ p.2 = q.2 := by omega
      exact Prod.ext_iff.2 h1
    · exfalso
      have hblack : (Board.put b p.1 p.2).2.atXY p.1 p.2 = Cell.BLACK :=
        put_black_at_target b p.1 p.2 hpx hpy hpe
    -- on the other successful move the cell stays Empty
      have hempty : (Board.put b q.1 q.2).2.atXY p.1 p.2 = Cell.EMPTY :=
        put_preserves_other_empty b q.1 q.2 p.1 p.2 hidx hpe
      have hb' : Board.flipPlayer (Board.put b p.1 p.2).2 =
          Board.flipPlayer (Board.put b q.1 q.2).2 := by rw [← hfp, ← hfq]
      have := congrArg (fun c => Board.atXY c p.1 p.2) hb'
      simp only [atXY_flipPlayer, hblack, hempty] at this
      exact Cell.noConfusion this

/-- Witness for C5 at the opening position and its first returned successor. -/
theorem C5_witness :
    (∃ x y, x < BOARD_SIZE ∧ y < BOARD_SIZE ∧ (Board.put initialBoard x y).1 = true ∧
      (Board.getNextStates initialBoard).getD 0 initialBoard =
        Board.flipPlayer (Board.put initialBoard x y).2) ∧
    (Board.getNextStates initialBoard).Nodup :=
  ⟨(C5_successor_shape initialBoard).1 _ (by decide), (C5_successor_shape initialBoard).2⟩

/-- One node's mutable statistics and identity, as stored by the C++ `Node`
constructor fields `board_`, `player_`, `isPassMove_`, `games_`, `mean_`
(`mean_` is a C++ `float`, modelled exactly over `Rat`). -/
structure NodeData where
  board : Board
  player : Player
  isPassMove : Bool
  games : Nat
  mean : Rat
deriving DecidableEq

/-- Index of the first greatest element of a list, the semantics of the
`std::max_element` call in `Node::getChildWithMaxValue` (`max_element` keeps
the current maximum unless a strictly greater element appears, so it returns
the first occurrence of the maximum). -/
def maxElemIdx {β : Type} [LinearOrder β] : List β → Nat
  | [] => 0
  | v :: rest => if v < rest.getD (maxElemIdx rest) v then maxElemIdx rest + 1 else 0

lemma maxElemIdx_lt {β : Type} [LinearOrder β] (l : List β) (h : l ≠ []) :
    maxElemIdx l < l.length := by
  induction l with
  | nil => exact absurd rfl h
  | cons v rest ih =>
    rw [maxElemIdx]
    by_cases hc : v < rest.getD (maxElemIdx rest) v
    · rw [if_pos hc]
      have hr : rest ≠ [] := by
        rintro rfl
        simp at hc
      have := ih hr
      simp only [List.length_cons]
      omega
    · rw [if_neg hc]
      simp

lemma maxElemIdx_le {β : Type} [LinearOrder β] (l : List β) (d : β) :
    ∀ j, j < l.length → l.getD j d ≤ l.getD (maxElemIdx l) d := by
  induction l with
  | nil => intro j hj; simp at hj
  | cons v rest ih =>
    intro j hj
    by_cases hrest : rest = []
    · subst hrest
      have hj0 : j = 0 := by
        simp only [List.length_cons, List.length_nil] at hj
        omega
      subst hj0
      simp [maxElemIdx]
    · have hr := maxElemIdx_lt rest hrest
      have hgd : rest.getD (maxElemIdx rest) v = rest.getD (maxElemIdx rest) d := by
        rw [List.getD_eq_getElem _ _ hr, List.getD_eq_getElem _ _ hr]
      rw [maxElemIdx]
      by_cases hc : v < rest.getD (maxElemIdx rest) v
      · rw [if_pos hc, List.getD_cons_succ]
        cases j with
        | zero =>
          rw [List.getD_cons_zero]
          rw [hgd] at hc
          exact le_of_lt hc
        | succ j =>
          rw [List.getD_cons_succ]
          exact ih j (by simpa using hj)
      · rw [if_neg hc, List.getD_cons_zero]
        push_neg at hc
        cases j with
        | zero => rw [List.getD_cons_zero]
        | succ j =>
          rw [List.getD_cons_succ]
          calc rest.getD j d ≤ rest.getD (maxElemIdx rest) d := ih j (by simpa using hj)
            _ = rest.getD (maxElemIdx rest) v := hgd.symm
            _ ≤ v := hc

lemma maxElemIdx_first {β : Type} [LinearOrder β] (l : List β) (d : β) :
    ∀ j, j < maxElemIdx l → l.getD j d < l.getD (maxElemIdx l) d := by
  induction l with
  | nil => intro j hj; simp [maxElemIdx] at hj
  | cons v rest ih =>
    intro j hj
    rw [maxElemIdx] at hj ⊢
    by_cases hc : v < rest.getD (maxElemIdx rest) v
    · rw [if_pos hc] at hj ⊢
      rw [List.getD_cons_succ]
      have hrest : rest ≠ [] := by
        rintro rfl
        simp at hc
      have hr := maxElemIdx_lt rest hrest
      cases j with
      | zero =>
        rw [List.getD_cons_zero]
        rw [List.getD_eq_getElem _ _ hr] at hc
        rw [List.getD_eq_getElem _ _ hr]
        exact hc
      | succ j =>
        rw [List.getD_cons_succ]
        exact ih j (by omega)
    · rw [if_neg hc] at hj
      omega

/-- `Node::getChildWithMaxValue(eval)`: evaluate every child, take the first
maximum (`std::max_element`), return that child.  The C++ asserts the child
list is non-empty; the empty case is modelled as `none`. -/
def getChildWithMaxValue {α : Type} {β : Type} [LinearOrder β]
    (children : List α) (eval : α → β) : Option α :=
  match children with
  | [] => none
  | c :: cs => some ((c :: cs).getD (maxElemIdx ((c :: cs).map eval)) c)

/-- `EXPLORATION_CONST = M_SQRT2` from the C++ source. -/
noncomputable def EXPLORATION_CONST : Real := Real.sqrt 2

/-- `Node::calcUCB()`: an unvisited node scores `INFINITY` (modelled by `⊤` of
`WithTop Real`); a visited node scores `mean_ + C * sqrt(log(parentGames) / games_)`.
The C++ `float` formula is modelled over `Real`. -/
noncomputable def calcUCB (parentGames : Nat) (d : NodeData) : WithTop Real :=
  if d.games = 0 then ⊤
  else (((d.mean : Real) + EXPLORATION_CONST *
    Real.sqrt (Real.log (parentGames : Real) / (d.games : Real)) : Real) : WithTop Real)

/-- `Node::getChildWithMaxUCB()`: `getChildWithMaxValue` with `calcUCB` as the
evaluation, given the parent's visit count. -/
noncomputable def getChildWithMaxUCB (parentGames : Nat) (children : List NodeData) :
    Option NodeData :=
  getChildWithMaxValue children (calcUCB parentGames)

/-- C6: on a non-empty child list `getChildWithMaxUCB` returns the child at the
first score-maximal index; whenever some child has zero visits the returned
child has zero visits (its score is `⊤`); every visited child's score is
exactly `mean + sqrt 2 * sqrt (log parentGames / games)`; the returned child's
score dominates all children's scores and strictly dominates all earlier ones
(first-encountered-maximum tie-break). -/
theorem C6_selectByUCB (N : Nat) (children : List NodeData) (hne : children ≠ []) :
    ∃ (i : Nat) (c : NodeData),
      i < children.length ∧
      getChildWithMaxUCB N children = some c ∧
      (∀ d0, children.getD i d0 = c) ∧
      ((∃ c0 ∈ children, c0.games = 0) → c.games = 0) ∧
      (∀ c0 ∈ children, c0.games ≠ 0 →
        calcUCB N c0 = (((c0.mean : Real) + EXPLORATION_CONST *
          Real.sqrt (Real.log (N : Real) / (c0.games : Real)) : Real) : WithTop Real)) ∧
      (∀ c0 ∈ children, calcUCB N c0 ≤ calcUCB N c) ∧
      (∀ (d0 : NodeData) (j : Nat), j < i → calcUCB N (children.getD j d0) < calcUCB N c) := by
  cases children with
  | nil => exact absurd rfl hne
  | cons c cs =>
    have hmne : (c :: cs).map (calcUCB N) ≠ [] := by simp
    have hlen : ((c :: cs).map (calcUCB N)).length = (c :: cs).length :=
      List.length_map _ _
    have hilt : maxElemIdx ((c :: cs).map (calcUCB N)) < (c :: cs).length := by
      rw [← hlen]
      exact maxElemIdx_lt _ hmne
    have hdefault : ∀ d0 : NodeData,
        (c :: cs).getD (maxElemIdx ((c :: cs).map (calcUCB N))) d0 =
        (c :: cs).getD (maxElemIdx ((c :: cs).map (calcUCB N))) c := by
      intro d0
      rw [List.getD_eq_getElem _ _ hilt, List.getD_eq_getElem _ _ hilt]
    have hmax : ∀ c0 ∈ (c :: cs), calcUCB N c0 ≤
        calcUCB N ((c :: cs).getD (maxElemIdx ((c :: cs).map (calcUCB N))) c) := by
      intro c0 hc0
      obtain ⟨j, hj, hjeq⟩ := List.mem_iff_getElem.1 hc0
      have h1 := maxElemIdx_le ((c :: cs).map (calcUCB N)) (calcUCB N c) j (by rw [hlen]; exact hj)
      rw [List.getD_map, List.getD_map] at h1
      rw [List.getD_eq_getElem _ _ hj, hjeq] at h1
      exact h1
    refine ⟨maxElemIdx ((c :: cs).map (calcUCB N)),
      (c :: cs).getD (maxElemIdx ((c :: cs).map (calcUCB N))) c,
      hilt, rfl, hdefault, ?_, ?_, hmax, ?_⟩
    · rintro ⟨c0, hc0m, hc0g⟩
      have htop : calcUCB N c0 = ⊤ := by rw [calcUCB, if_pos hc0g]
      have h2 := hmax c0 hc0m
      rw [htop] at h2
      have h4 := top_le_iff.1 h2
      by_contra hg
      rw [calcUCB, if_neg hg] at h4
      exact WithTop.coe_ne_top h4
    · intro c0 _ hg
      rw [calcUCB, if_neg hg]
    · intro d0 j hj
      have h1 := maxElemIdx_first ((c :: cs).map (calcUCB N)) (calcUCB N d0) j hj
      rw [List.getD_map, List.getD_map] at h1
      rw [hdefault d0] at h1
      exact h1

/-- Concrete two-child list for the C6 witness: a visited child followed by an
unvisited one. -/
def c6Children : List NodeData :=
  [⟨initialBoard, Player.BLACK, false, 1, 1 / 2⟩, ⟨initialBoard, Player.BLACK, false, 0, 0⟩]

/-- Witness for C6 on a concrete child list containing an unvisited child. -/
theorem C6_witness :
    ∃ (i : Nat) (c : NodeData),
      i < c6Children.length ∧
      getChildWithMaxUCB 2 c6Children = some c ∧
      (∀ d0, c6Children.getD i d0 = c) ∧
      ((∃ c0 ∈ c6Children, c0.games = 0) → c.games = 0) ∧
      (∀ c0 ∈ c6Children, c0.games ≠ 0 →
        calcUCB 2 c0 = (((c0.mean : Real) + EXPLORATION_CONST *
          Real.sqrt (Real.log (2 : Nat) / (c0.games : Real)) : Real) : WithTop Real)) ∧
      (∀ c0 ∈ c6Children, calcUCB 2 c0 ≤ calcUCB 2 c) ∧
      (∀ (d0 : NodeData) (j : Nat), j < i → calcUCB 2 (c6Children.getD j d0) < calcUCB 2 c) :=
  C6_selectByUCB 2 c6Children (by decide)

/-- The statistics update performed by one `Node::propagateResult` call on one
node: `mean_ = (games_ * mean_ + occ) / (games_ + 1); ++games_;` (both reads of
`games_` see the old value). -/
def updStat (d : NodeData) (v : Rat) : NodeData :=
  { d with
    mean := ((d.games : Rat) * d.mean + v) / ((d.games : Rat) + 1),
    games := d.games + 1 }

/-- A freshly constructed node's data: the `Node` constructor sets
`isPassMove_ = false`, `games_ = 0`, `mean_ = 0`. -/
def freshData (b : Board) (p : Player) : NodeData :=
  ⟨b, p, false, 0, 0⟩

/-- `Node::propagateResult(occ)` along the ancestor chain listed leaf-first:
update this node with the value, then recurse into the parent with the value
negated (`1 - occ`); the recursion stops at the root (the end of the list). -/
def propagateResult : List NodeData → Rat → List NodeData
  | [], _ => []
  | d :: rest, v => updStat d v :: propagateResult rest (1 - v)

lemma foldl_updStat_games (vs : List Rat) : ∀ d : NodeData,
    (vs.foldl updStat d).games = d.games + vs.length := by
  induction vs with
  | nil => intro d; simp
  | cons v vs ih =>
    intro d
    rw [List.foldl_cons, ih]
    simp only [updStat, List.length_cons]
    omega

lemma foldl_updStat_mean (vs : List Rat) (hne : vs ≠ []) : ∀ d : NodeData,
    (vs.foldl updStat d).mean =
      ((d.games : Rat) * d.mean + vs.sum) / ((d.games : Rat) + vs.length) := by
  induction vs with
  | nil => exact absurd rfl hne
  | cons v vs ih =>
    intro d
    rw [List.foldl_cons]
    by_cases hvs : vs = []
    · subst hvs
      simp only [List.foldl_nil, updStat, List.sum_cons, List.sum_nil, List.length_cons,
        List.length_nil]
      push_cast
      ring_nf
    · rw [ih hvs]
      simp only [updStat, List.sum_cons, List.length_cons]
      have h1 : ((d.games : Rat) + 1) ≠ 0 := by positivity
      have h2 : ((d.games : Rat) + 1 + (vs.length : Rat)) ≠ 0 := by positivity
      have h3 : ((d.games : Rat) + ((vs.length : Rat) + 1)) ≠ 0 := by positivity
      push_cast
      field_simp
      ring

/-- C3: one `propagateResult` call updates the node with
`mean' = (games * mean + v) / (games + 1)`, increments the visit count, and
recurses into the parent with `1 - v`, stopping at the root; and starting from
a fresh node, after any sequence of propagated values in `[0,1]` the visit
count equals the number of values and the mean equals their arithmetic mean,
hence stays in `[0,1]`. -/
theorem C3_propagateResult_stats (b : Board) (p : Player) (vs : List Rat)
    (hvals : ∀ v ∈ vs, 0 ≤ v ∧ v ≤ 1) (hne : vs ≠ []) (d : NodeData)
    (rest : List NodeData) (w : Rat) :
    propagateResult (d :: rest) w = updStat d w :: propagateResult rest (1 - w) ∧
    (updStat d w).games = d.games + 1 ∧
    (updStat d w).mean = ((d.games : Rat) * d.mean + w) / ((d.games : Rat) + 1) ∧
    (vs.foldl updStat (freshData b p)).games = vs.length ∧
    (vs.foldl updStat (freshData b p)).mean = vs.sum / (vs.length : Rat) ∧
    0 ≤ (vs.foldl updStat (freshData b p)).mean ∧
    (vs.foldl updStat (freshData b p)).mean ≤ 1 := by
  have hlen : 0 < vs.length := List.length_pos.2 hne
  have hlenq : (0 : Rat) < (vs.length : Rat) := by exact_mod_cast hlen
  have hmean : (vs.foldl updStat (freshData b p)).mean = vs.sum / (vs.length : Rat) := by
    rw [foldl_updStat_mean vs hne]
    simp [freshData]
  have hsumnn : (0 : Rat) ≤ vs.sum := List.sum_nonneg (fun v hv => (hvals v hv).1)
  have hsumle : vs.sum ≤ (vs.length : Rat) := by
    have h := List.sum_le_card_nsmul vs 1 (fun v hv => (hvals v hv).2)
    simpa using h
  refine ⟨rfl, rfl, rfl, ?_, hmean, ?_, ?_⟩
  · rw [foldl_updStat_games]
    simp [freshData]
  · rw [hmean]
    exact div_nonneg hsumnn (le_of_lt hlenq)
  · rw [hmean, div_le_one hlenq]
    exact hsumle

/-- Witness for C3 with the value sequence `[1/2, 1]` at a fresh node. -/
theorem C3_witness :
    propagateResult [freshData initialBoard Player.BLACK] (1 / 4) =
      updStat (freshData initialBoard Player.BLACK) (1 / 4) ::
        propagateResult [] (1 - 1 / 4) ∧
    (updStat (freshData initialBoard Player.BLACK) (1 / 4)).games =
      (freshData initialBoard Player.BLACK).games + 1 ∧
    (updStat (freshData initialBoard Player.BLACK) (1 / 4)).mean =
      (((freshData initialBoard Player.BLACK).games : Rat) *
          (freshData initialBoard Player.BLACK).mean + 1 / 4) /
        (((freshData initialBoard Player.BLACK).games : Rat) + 1) ∧
    (([1 / 2, 1] : List Rat).foldl updStat (freshData initialBoard Player.BLACK)).games =
      ([1 / 2, 1] : List Rat).length ∧
    (([1 / 2, 1] : List Rat).foldl updStat (freshData initialBoard Player.BLACK)).mean =
      ([1 / 2, 1] : List Rat).sum / (([1 / 2, 1] : List Rat).length : Rat) ∧
    0 ≤ (([1 / 2, 1] : List Rat).foldl updStat (freshData initialBoard Player.BLACK)).mean ∧
    (([1 / 2, 1] : List Rat).foldl updStat (freshData initialBoard Player.BLACK)).mean ≤ 1 :=
  C3_propagateResult_stats initialBoard Player.BLACK [1 / 2, 1]
    (by
      intro v hv
      rcases List.mem_cons.1 hv with rfl | hv2
      · norm_num
      · rcases List.mem_singleton.1 hv2 with rfl
        norm_num)
    (by simp) (freshData initialBoard Player.BLACK) [] (1 / 4)

/-- The search tree: one `Node` with its owned children (the C++ links nodes
with owning child pointers plus a raw parent pointer; here the tree is explicit
and operations address a node by its child-index path from the root). -/
inductive GTree where
  | mk : NodeData → List GTree → GTree

/-- The node's own data fields. -/
def GTree.data : GTree → NodeData
  | GTree.mk d _ => d

/-- The node's `children_` list. -/
def GTree.children : GTree → List GTree
  | GTree.mk _ cs => cs

/-- Number of children of the root node of a tree. -/
def GTree.numChildren : GTree → Nat
  | GTree.mk _ cs => cs.length

/-- The `(player_ == Player::BLACK) ? Player::WHITE : Player::BLACK` toggles. -/
def toggle : Player → Player
  | Player.BLACK => Player.WHITE
  | Player.WHITE => Player.BLACK

/-- A node as created by the `Node` constructor: given board and player, no
pass flag, zero visits, zero mean, no children. -/
def freshNode (b : Board) (p : Player) : GTree :=
  GTree.mk (freshData b p) []

/-- `MIN_VISITS_TO_EXPAND = 1` from the C++ source. -/
def MIN_VISITS_TO_EXPAND : Nat := 1

/-- Inner part of `Node::expand` once `boards = board_.getNextStates()` is
computed: set `isPassMove_ = boards.empty()`; on a pass, create the single
flipped-board child unless the parent is already a pass (`assert(parent_)`
failing, i.e. a pass at the root, is modelled as `none`); otherwise create one
child per successor board. -/
def expandWith (parentIsPass : Option Bool) (d : NodeData) (cs : List GTree)
    (boards : List Board) : Option GTree :=
  if boards.isEmpty = true then
    if parentIsPass = none then none
    else if parentIsPass = some true then some (GTree.mk { d with isPassMove := true } cs)
    else some (GTree.mk { d with isPassMove := true }
      (cs ++ [freshNode (Board.flipPlayer d.board) (toggle d.player)]))
  else
    some (GTree.mk { d with isPassMove := false }
      (cs ++ boards.map (fun nb => freshNode nb (toggle d.player))))

/-- The guarded body of `Node::expand`: only a childless node with at least
`MIN_VISITS_TO_EXPAND` visits expands. -/
def expandBody (parentIsPass : Option Bool) (d : NodeData) (cs : List GTree) : Option GTree :=
  if cs.isEmpty = true ∧ MIN_VISITS_TO_EXPAND ≤ d.games then
    expandWith parentIsPass d cs (Board.getNextStates d.board)
  else some (GTree.mk d cs)

/-- `Node::expand()`: the entry guard returns unchanged when this node and its
parent are both passes (`assert(parent_)` failure for a parentless pass node is
modelled as `none`), then runs the guarded body. -/
def expandNode (parentIsPass : Option Bool) : GTree → Option GTree
  | GTree.mk d cs =>
    if d.isPassMove = true then
      if parentIsPass = none then none
      else if parentIsPass = some true then some (GTree.mk d cs)
      else expandBody parentIsPass d cs
    else expandBody parentIsPass d cs

lemma isFilled_atXY (b : Board) (h : b.isFilled = true) (u v : Nat)
    (hu : u < BOARD_SIZE) (hv : v < BOARD_SIZE) : b.atXY u v ≠ Cell.EMPTY := by
  have hidx : u + v * BOARD_SIZE < BOARD_CELLS := by
    simp only [BOARD_SIZE, BOARD_CELLS] at hu hv ⊢
    omega
  rw [Board.isFilled, List.all_eq_true] at h
  rw [Board.atXY, List.getD_eq_getElem _ _ (by rw [b.property]; exact hidx)]
  exact of_decide_eq_true (h _ (List.getElem_mem _))

/-- A filled board has no legal successor. -/
lemma getNextStates_of_isFilled (b : Board) (h : b.isFilled = true) :
    Board.getNextStates b = [] := by
  rw [Board.getNextStates, List.filterMap_eq_nil_iff]
  intro p hp
  obtain ⟨h1, h2⟩ := positionOrder_bounds p hp
  have hput : Board.put b p.1 p.2 = (false, b) := by
    rw [Board.put, if_pos (Or.inr (isFilled_atXY b h p.1 p.2 h1 h2))]
  simp only [hput]
  simp

/-- Concrete full-board node with one visit (counterexample input for C4). -/
def c4Node : GTree :=
  GTree.mk ⟨fullBoard, Player.BLACK, false, 1, 0⟩ []

/-- C4 (counterexample): `expand` on a node whose board is full, with one
visit, no children and a non-pass parent, creates one child — it does not
treat the full board as terminal. -/
theorem C4_counterexample :
    fullBoard.isFilled = true ∧
    (expandNode (some false) c4Node).map GTree.numChildren = some 1 := by decide

/-- C4 (amended): `expand` on a full-board node either leaves the child list
unchanged (in particular whenever the node has zero visits or already has
children), or — when the node is childless with at least one visit and the
parent is a non-pass node — creates exactly one synthetic pass child wrapping
the colour-flipped board. -/
theorem C4_expand_full_board (pp : Option Bool) (d : NodeData) (cs : List GTree) (t' : GTree)
    (hfull : d.board.isFilled = true)
    (h : expandNode pp (GTree.mk d cs) = some t') :
    GTree.children t' = cs ∨
    (cs = [] ∧ 1 ≤ d.games ∧ pp = some false ∧
      GTree.children t' = [freshNode (Board.flipPlayer d.board) (toggle d.player)]) := by
  have hboards : Board.getNextStates d.board = [] := getNextStates_of_isFilled d.board hfull
  have hbody : expandBody pp d cs = some t' →
      GTree.children t' = cs ∨
      (cs = [] ∧ 1 ≤ d.games ∧ pp = some false ∧
        GTree.children t' = [freshNode (Board.flipPlayer d.board) (toggle d.player)]) := by
    intro h2
    rw [expandBody] at h2
    by_cases hguard : cs.isEmpty = true ∧ MIN_VISITS_TO_EXPAND ≤ d.games
    · rw [if_pos hguard, expandWith, hboards, if_pos List.isEmpty_nil] at h2
      by_cases hnone : pp = none
      · rw [if_pos hnone] at h2
        exact Option.noConfusion h2
      · rw [if_neg hnone] at h2
        by_cases htrue : pp = some true
        · rw [if_pos htrue] at h2
          left
          rw [← Option.some_inj.1 h2]
          rfl
        · rw [if_neg htrue] at h2
          right
          have hcs : cs = [] := List.isEmpty_iff.1 hguard.1
          have hppf : pp = some false := by
            rcases pp with _ | b
            · exact absurd rfl hnone
            · cases b
              · rfl
              · exact absurd rfl htrue
          refine ⟨hcs, hguard.2, hppf, ?_⟩
          rw [← Option.some_inj.1 h2, hcs]
          rfl
    · rw [if_neg hguard] at h2
      left
      rw [← Option.some_inj.1 h2]
      rfl
  simp only [expandNode] at h
  by_cases hpass : d.isPassMove = true
  · rw [if_pos hpass] at h
    by_cases hnone : pp = none
    · rw [if_pos hnone] at h
      exact Option.noConfusion h
    · rw [if_neg hnone] at h
      by_cases htrue : pp = some true
      · rw [if_pos htrue] at h
        left
        rw [← Option.some_inj.1 h]
        rfl
      · rw [if_neg htrue] at h
        exact hbody h
  · rw [if_neg hpass] at h
    exact hbody h

/-- Concrete full-board node with zero visits (witness input for C4). -/
def c4NodeZero : GTree :=
  GTree.mk ⟨fullBoard, Player.BLACK, false, 0, 0⟩ []

/-- Witness for C4: a zero-visit full-board node expands to itself, gaining no child. -/
theorem C4_witness :
    GTree.children c4NodeZero = ([] : List GTree) ∨
    (([] : List GTree) = [] ∧
      1 ≤ (⟨fullBoard, Player.BLACK, false, 0, 0⟩ : NodeData).games ∧
      (some false : Option Bool) = some false ∧
      GTree.children c4NodeZero =
        [freshNode (Board.flipPlayer fullBoard) (toggle Player.BLACK)]) :=
  C4_expand_full_board (some false) ⟨fullBoard, Player.BLACK, false, 0, 0⟩ [] c4NodeZero
    (by decide) rfl

mutual
/-- `Node::propagateResult` acting on the explicit tree, addressed from the
root: the node at the end of `path` is the one the C++ call starts at; every
node on the way receives the value negated once per level (the C++ recursion
`parent_->propagateResult(1 - occ)` seen top-down).  An out-of-range child
index leaves the list unchanged (the C++ path always exists). -/
def propagateResultAt : GTree → List Nat → Rat → GTree
  | GTree.mk d cs, [], v => GTree.mk (updStat d v) cs
  | GTree.mk d cs, i :: rest, v => GTree.mk (updStat d v) (propagateChildren cs i rest (1 - v))
def propagateChildren : List GTree → Nat → List Nat → Rat → List GTree
  | [], _, _, _ => []
  | c :: cs, 0, rest, v => propagateResultAt c rest v :: cs
  | c :: cs, i + 1, rest, v => c :: propagateChildren cs i rest v
end

mutual
/-- `Node::expand` at the node addressed by `path`; the parent's pass flag is
passed down the walk (the root has no parent: `none`). -/
def expandAt : Option Bool → GTree → List Nat → Option GTree
  | pp, t, [] => expandNode pp t
  | _, GTree.mk d cs, i :: rest => (expandAtChildren d.isPassMove cs i rest).map (GTree.mk d)
def expandAtChildren : Bool → List GTree → Nat → List Nat → Option (List GTree)
  | _, [], _, _ => some []
  | pp, c :: cs, 0, rest => (expandAt (some pp) c rest).map (fun c' => c' :: cs)
  | pp, c :: cs, i + 1, rest => (expandAtChildren pp cs i rest).map (fun cs' => c :: cs')
end

mutual
/-- The data of the node addressed by a child-index path, if the path exists. -/
def nodeDataAt : GTree → List Nat → Option NodeData
  | GTree.mk d _, [] => some d
  | GTree.mk _ cs, i :: rest => childDataAt cs i rest
def childDataAt : List GTree → Nat → List Nat → Option NodeData
  | [], _, _ => none
  | c :: _, 0, rest => nodeDataAt c rest
  | _ :: cs, i + 1, rest => childDataAt cs i rest
end

/-- The mutable statistics (`games_`, `mean_`) of the node addressed by a path. -/
def statAt (t : GTree) (q : List Nat) : Option (Nat × Rat) :=
  (nodeDataAt t q).map (fun d => (d.games, d.mean))

/-- Everything about a tree except the per-node statistics: each node's board
snapshot, pass flag, player tag, and the shape of its child list. -/
inductive Skel where
  | mk : Board → Bool → Player → List Skel → Skel

mutual
/-- Project a tree onto its statistics-free part. -/
def skeleton : GTree → Skel
  | GTree.mk d cs => Skel.mk d.board d.isPassMove d.player (skeletonList cs)
def skeletonList : List GTree → List Skel
  | [] => []
  | c :: cs => skeleton c :: skeletonList cs
end

/-- The simulation loop of `Node::playout()`, on a copy of the board: while the
board is not filled, compute the successors; if none, flip the board (game over
after two consecutive passes); otherwise move to a successor picked by the
random source, modelled as an arbitrary stream `choices` read at a running
index and reduced mod the successor count (`RNG::randomIndex(n)` returns a
value in `[0, n)`).  The player toggles each ply.  The fuel bounds the loop;
every iteration either fills a cell or alternates at most two passes, so
`2 * BOARD_CELLS + 2` steps always suffice. -/
def playoutLoop (choices : Nat → Nat) : Nat → Nat → Board → Player → Bool → Board × Player
  | 0, _, b, pl, _ => (b, pl)
  | fuel + 1, k, b, pl, passed =>
    if b.isFilled = true then (b, pl)
    else
      if (Board.getNextStates b).isEmpty = true then
        if passed = true then (b, pl)
        else playoutLoop choices fuel k (Board.flipped b) (toggle pl) true
      else
        playoutLoop choices fuel (k + 1)
          ((Board.getNextStates b).getD (choices k % (Board.getNextStates b).length) b)
          (toggle pl) false

/-- Fuel that always suffices for `playoutLoop` on an 8x8 board. -/
def PLAYOUT_FUEL : Nat := 2 * BOARD_CELLS + 2

/-- The value `Node::playout()` propagates: the final Black occupation,
reinterpreted relative to this node's own mover (`1 - occ` when the
simulation's final mover equals the node's player, `occ` otherwise). -/
def playoutValue (choices : Nat → Nat) (b : Board) (pl : Player) (passed : Bool) : Rat :=
  if (playoutLoop choices PLAYOUT_FUEL 0 b pl passed).2 = pl then
    1 - Board.getBlackOccupation (playoutLoop choices PLAYOUT_FUEL 0 b pl passed).1
  else Board.getBlackOccupation (playoutLoop choices PLAYOUT_FUEL 0 b pl passed).1

/-- Iterated `1 - _`: the value seen `k` levels above the playout node. -/
def negIter : Nat → Rat → Rat
  | 0, v => v
  | k + 1, v => 1 - negIter k v

/-- `Node::playout()` at the node addressed by `path`: run the simulation from
that node's board, player and pass flag, then backpropagate the resulting
value through the node and its ancestors (`negIter` converts the leaf-relative
value into the root-relative one that `propagateResultAt` pushes down). -/
def playoutAt (t : GTree) (path : List Nat) (choices : Nat → Nat) : GTree :=
  propagateResultAt t path
    (negIter path.length
      (playoutValue choices
        ((nodeDataAt t path).getD t.data).board
        ((nodeDataAt t path).getD t.data).player
        ((nodeDataAt t path).getD t.data).isPassMove))

/-- The spec's structural invariants on the search tree: a node with zero
visits has no children, and a child's visit count never exceeds its parent's. -/
inductive TreeInv : GTree → Prop
  | mk : ∀ (d : NodeData) (cs : List GTree),
      (d.games = 0 → cs = []) →
      (∀ c ∈ cs, (GTree.data c).games ≤ d.games) →
      (∀ c ∈ cs, TreeInv c) →
      TreeInv (GTree.mk d cs)

lemma TreeInv_freshNode (b : Board) (p : Player) : TreeInv (freshNode b p) := by
  constructor
  · intro _
    rfl
  · intro c hc
    exact absurd hc (List.not_mem_nil c)
  · intro c hc
    exact absurd hc (List.not_mem_nil c)

lemma updStat_games (d : NodeData) (v : Rat) : (updStat d v).games = d.games + 1 := rfl

lemma propagateResultAt_games (path : List Nat) (t : GTree) (v : Rat) :
    (propagateResultAt t path v).data.games = t.data.games + 1 := by
  cases t with
  | mk d cs => cases path <;> rfl

lemma propagateChildren_mem : ∀ (cs : List GTree) (i : Nat) (rest : List Nat) (v : Rat)
    (c' : GTree), c' ∈ propagateChildren cs i rest v →
      c' ∈ cs ∨ ∃ c ∈ cs, c' = propagateResultAt c rest v := by
  intro cs
  induction cs with
  | nil =>
    intro i rest v c' h
    simp only [propagateChildren] at h
    exact absurd h (List.not_mem_nil c')
  | cons c cs ih =>
    intro i rest v c' h
    cases i with
    | zero =>
      simp only [propagateChildren] at h
      rcases List.mem_cons.1 h with h1 | h1
      · right
        exact ⟨c, List.mem_cons_self c cs, h1⟩
      · left
        exact List.mem_cons_of_mem c h1
    | succ i =>
      simp only [propagateChildren] at h
      rcases List.mem_cons.1 h with h1 | h1
      · left
        rw [h1]
        exact List.mem_cons_self c cs
      · rcases ih i rest v c' h1 with h2 | ⟨c0, hc0, h2⟩
        · left
          exact List.mem_cons_of_mem c h2
        · right
          exact ⟨c0, List.mem_cons_of_mem c hc0, h2⟩

lemma TreeInv_propagateResultAt : ∀ (path : List Nat) (t : GTree) (v : Rat),
    TreeInv t → TreeInv (propagateResultAt t path v) := by
  intro path
  induction path with
  | nil =>
    intro t v hinv
    cases t with
    | mk d cs =>
      cases hinv with
      | mk _ _ h0 hle hrec =>
        constructor
        · intro h
          rw [updStat_games] at h
          exact absurd h (Nat.succ_ne_zero _)
        · intro c hc
          exact le_trans (hle c hc) (by rw [updStat_games]; exact Nat.le_succ _)
        · exact hrec
  | cons i rest ih =>
    intro t v hinv
    cases t with
    | mk d cs =>
      cases hinv with
      | mk _ _ h0 hle hrec =>
        show TreeInv (GTree.mk (updStat d v) (propagateChildren cs i rest (1 - v)))
        constructor
        · intro h
          rw [updStat_games] at h
          exact absurd h (Nat.succ_ne_zero _)
        · intro c' hc'
          rcases propagateChildren_mem cs i rest (1 - v) c' hc' with h1 | ⟨c0, hc0, h2⟩
          · exact le_trans (hle c' h1) (by rw [updStat_games]; exact Nat.le_succ _)
          · rw [h2, propagateResultAt_games, updStat_games]
            exact Nat.succ_le_succ (hle c0 hc0)
        · intro c' hc'
          rcases propagateChildren_mem cs i rest (1 - v) c' hc' with h1 | ⟨c0, hc0, h2⟩
          · exact hrec c' h1
          · rw [h2]
            exact ih c0 (1 - v) (hrec c0 hc0)

lemma expandNode_games (pp : Option Bool) (t t' : GTree)
    (h : expandNode pp t = some t') : t'.data.games = t.data.games := by
  cases t with
  | mk d cs =>
    have hbody : expandBody pp d cs = some t' → t'.data.games = d.games := by
      intro h2
      rw [expandBody] at h2
      by_cases hguard : cs.isEmpty = true ∧ MIN_VISITS_TO_EXPAND ≤ d.games
      · rw [if_pos hguard, expandWith] at h2
        by_cases hempty : (Board.getNextStates d.board).isEmpty = true
        · rw [if_pos hempty] at h2
          by_cases hnone : pp = none
          · rw [if_pos hnone] at h2
            exact Option.noConfusion h2
          · rw [if_neg hnone] at h2
            by_cases htrue : pp = some true
            · rw [if_pos htrue] at h2
              rw [← Option.some_inj.1 h2]
              rfl
            · rw [if_neg htrue] at h2
              rw [← Option.some_inj.1 h2]
              rfl
        · rw [if_neg hempty] at h2
          rw [← Option.some_inj.1 h2]
          rfl
      · rw [if_neg hguard] at h2
        rw [← Option.some_inj.1 h2]
        rfl
    simp only [expandNode] at h
    by_cases hpass : d.isPassMove = true
    · rw [if_pos hpass] at h
      by_cases hnone : pp = none
      · rw [if_pos hnone] at h
        exact Option.noConfusion h
      · rw [if_neg hnone] at h
        by_cases htrue : pp = some true
        · rw [if_pos htrue] at h
          rw [← Option.some_inj.1 h]
        · rw [if_neg htrue] at h
          exact hbody h
    · rw [if_neg hpass] at h
      exact hbody h

lemma expandAt_games : ∀ (path : List Nat) (pp : Option Bool) (t t' : GTree),
    expandAt pp t path = some t' → t'.data.games = t.data.games := by
  intro path
  cases path with
  | nil =>
    intro pp t t' h
    cases t with
    | mk d cs =>
      simp only [expandAt] at h
      exact expandNode_games pp (GTree.mk d cs) t' h
  | cons i rest =>
    intro pp t t' h
    cases t with
    | mk d cs =>
      simp only [expandAt] at h
      cases hec : expandAtChildren d.isPassMove cs i rest with
      | none =>
        rw [hec] at h
        exact Option.noConfusion h
      | some cs' =>
        rw [hec, Option.map_some'] at h
        rw [← Option.some_inj.1 h]
        rfl

lemma TreeInv_expandNode (pp : Option Bool) (t t' : GTree)
    (hinv : TreeInv t) (h : expandNode pp t = some t') : TreeInv t' := by
  cases t with
  | mk d cs =>
    cases hinv with
    | mk _ _ h0 hle hrec =>
      have hbody : expandBody pp d cs = some t' → TreeInv t' := by
        intro h2
        rw [expandBody] at h2
        by_cases hguard : cs.isEmpty = true ∧ MIN_VISITS_TO_EXPAND ≤ d.games
        · have hcs : cs = [] := List.isEmpty_iff.1 hguard.1
          have hg1 : 1 ≤ d.games := hguard.2
          rw [if_pos hguard, expandWith] at h2
          by_cases hempty : (Board.getNextStates d.board).isEmpty = true
          · rw [if_pos hempty] at h2
            by_cases hnone : pp = none
            · rw [if_pos hnone] at h2
              exact Option.noConfusion h2
            · rw [if_neg hnone] at h2
              by_cases htrue : pp = some true
              · rw [if_pos htrue] at h2
                rw [← Option.some_inj.1 h2]
                exact TreeInv.mk _ cs h0 hle hrec
              · rw [if_neg htrue] at h2
                rw [← Option.some_inj.1 h2, hcs]
                constructor
                · intro hgz
                  have hgz' : d.games = 0 := hgz
                  exact absurd hgz' (by omega)
                · intro c hc
                  simp only [List.nil_append, List.mem_singleton] at hc
                  rw [hc]
                  exact Nat.zero_le _
                · intro c hc
                  simp only [List.nil_append, List.mem_singleton] at hc
                  rw [hc]
                  exact TreeInv_freshNode _ _
          · rw [if_neg hempty] at h2
            rw [← Option.some_inj.1 h2, hcs]
            constructor
            · intro hgz
              have hgz' : d.games = 0 := hgz
              exact absurd hgz' (by omega)
            · intro c hc
              simp only [List.nil_append, List.mem_map] at hc
              obtain ⟨nb, _, hnb⟩ := hc
              rw [← hnb]
              exact Nat.zero_le _
            · intro c hc
              simp only [List.nil_append, List.mem_map] at hc
              obtain ⟨nb, _, hnb⟩ := hc
              rw [← hnb]
              exact TreeInv_freshNode _ _
        · rw [if_neg hguard] at h2
          rw [← Option.some_inj.1 h2]
          exact TreeInv.mk d cs h0 hle hrec
      simp only [expandNode] at h
      by_cases hpass : d.isPassMove = true
      · rw [if_pos hpass] at h
        by_cases hnone : pp = none
        · rw [if_pos hnone] at h
          exact Option.noConfusion h
        · rw [if_neg hnone] at h
          by_cases htrue : pp = some true
          · rw [if_pos htrue] at h
            rw [← Option.some_inj.1 h]
            exact TreeInv.mk d cs h0 hle hrec
          · rw [if_neg htrue] at h
            exact hbody h
      · rw [if_neg hpass] at h
        exact hbody h

lemma TreeInv_expandAt : ∀ (path : List Nat) (pp : Option Bool) (t t' : GTree),
    TreeInv t → expandAt pp t path = some t' → TreeInv t' := by
  intro path
  induction path with
  | nil =>
    intro pp t t' hinv h
    cases t with
    | mk d cs =>
      simp only [expandAt] at h
      exact TreeInv_expandNode pp (GTree.mk d cs) t' hinv h
  | cons i rest ih =>
    intro pp t t' hinv h
    cases t with
    | mk d cs =>
      cases hinv with
      | mk _ _ h0 hle hrec =>
        simp only [expandAt] at h
        cases hec : expandAtChildren d.isPassMove cs i rest with
        | none =>
          rw [hec] at h
          exact Option.noConfusion h
        | some cs' =>
          rw [hec, Option.map_some'] at h
          rw [← Option.some_inj.1 h]
          have hch : ∀ (cs2 : List GTree) (i2 : Nat) (ppb : Bool) (cs2' : List GTree),
              (∀ c ∈ cs2, TreeInv c) → expandAtChildren ppb cs2 i2 rest = some cs2' →
              (∀ c' ∈ cs2', TreeInv c') ∧
              cs2'.map (fun c => (GTree.data c).games) =
                cs2.map (fun c => (GTree.data c).games) := by
            intro cs2
            induction cs2 with
            | nil =>
              intro i2 ppb cs2' _ h2
              simp only [expandAtChildren] at h2
              rw [← Option.some_inj.1 h2]
              exact ⟨fun c hc => absurd hc (List.not_mem_nil c), rfl⟩
            | cons c cs2 ihc =>
              intro i2 ppb cs2' hall h2
              cases i2 with
              | zero =>
                simp only [expandAtChildren] at h2
                cases hea : expandAt (some ppb) c rest with
                | none =>
                  rw [hea] at h2
                  exact Option.noConfusion h2
                | some c0 =>
                  rw [hea, Option.map_some'] at h2
                  rw [← Option.some_inj.1 h2]
                  constructor
                  · intro c' hc'
                    rcases List.mem_cons.1 hc' with h3 | h3
                    · rw [h3]
                      exact ih (some ppb) c c0 (hall c (List.mem_cons_self c cs2)) hea
                    · exact hall c' (List.mem_cons_of_mem c h3)
                  · simp only [List.map_cons]
                    rw [expandAt_games rest (some ppb) c c0 hea]
              | succ i2 =>
                simp only [expandAtChildren] at h2
                cases hec2 : expandAtChildren ppb cs2 i2 rest with
                | none =>
                  rw [hec2] at h2
                  exact Option.noConfusion h2
                | some cs0 =>
                  rw [hec2, Option.map_some'] at h2
                  rw [← Option.some_inj.1 h2]
                  obtain ⟨ha, hb⟩ :=
                    ihc i2 ppb cs0 (fun c2 hc2 => hall c2 (List.mem_cons_of_mem c hc2)) hec2
                  constructor
                  · intro c' hc'
                    rcases List.mem_cons.1 hc' with h3 | h3
                    · rw [h3]
                      exact hall c (List.mem_cons_self c cs2)
                    · exact ha c' h3
                  · simp only [List.map_cons]
                    rw [hb]
          obtain ⟨ha, hb⟩ := hch cs i d.isPassMove cs' hrec hec
          constructor
          · intro hgz
            have hnil : cs = [] := h0 hgz
            subst hnil
            have hmapnil : cs'.map (fun c => (GTree.data c).games) = [] := by
              rw [hb]
              rfl
            exact List.map_eq_nil_iff.1 hmapnil
          · intro c' hc'
            have hmem : (GTree.data c').games ∈ cs.map (fun c => (GTree.data c).games) := by
              rw [← hb]
              exact List.mem_map.2 ⟨c', hc', rfl⟩
            obtain ⟨c0, hc0, heq⟩ := List.mem_map.1 hmem
            rw [← heq]
            exact hle c0 hc0
          · exact ha

/-- C7: node construction, `propagateResult`, `playout` and `expand` all
preserve the invariants that a node with zero visits has no children and that
a child's visit count never exceeds its parent's. -/
theorem C7_operations_preserve_invariants (b : Board) (p : Player) (t t' : GTree)
    (path : List Nat) (v : Rat) (pp : Option Bool) (choices : Nat → Nat) :
    TreeInv (freshNode b p) ∧
    (TreeInv t → TreeInv (propagateResultAt t path v)) ∧
    (TreeInv t → TreeInv (playoutAt t path choices)) ∧
    (TreeInv t → expandAt pp t path = some t' → TreeInv t') :=
  ⟨TreeInv_freshNode b p,
   fun h => TreeInv_propagateResultAt path t v h,
   fun h => TreeInv_propagateResultAt path t _ h,
   fun h1 h2 => TreeInv_expandAt path pp t t' h1 h2⟩

/-- Witness for C7 at a fresh root node. -/
theorem C7_witness :
    TreeInv (freshNode initialBoard Player.BLACK) ∧
    TreeInv (propagateResultAt (freshNode initialBoard Player.BLACK) [] (1 / 2)) ∧
    TreeInv (playoutAt (freshNode initialBoard Player.BLACK) [] (fun _ => 0)) ∧
    TreeInv (freshNode initialBoard Player.BLACK) :=
  ⟨(C7_operations_preserve_invariants initialBoard Player.BLACK
      (freshNode initialBoard Player.BLACK) (freshNode initialBoard Player.BLACK)
      [] (1 / 2) none (fun _ => 0)).1,
   (C7_operations_preserve_invariants initialBoard Player.BLACK
      (freshNode initialBoard Player.BLACK) (freshNode initialBoard Player.BLACK)
      [] (1 / 2) none (fun _ => 0)).2.1
     (TreeInv_freshNode initialBoard Player.BLACK),
   (C7_operations_preserve_invariants initialBoard Player.BLACK
      (freshNode initialBoard Player.BLACK) (freshNode initialBoard Player.BLACK)
      [] (1 / 2) none (fun _ => 0)).2.2.1
     (TreeInv_freshNode initialBoard Player.BLACK),
   (C7_operations_preserve_invariants initialBoard Player.BLACK
      (freshNode initialBoard Player.BLACK) (freshNode initialBoard Player.BLACK)
      [] (1 / 2) none (fun _ => 0)).2.2.2
     (TreeInv_freshNode initialBoard Player.BLACK) rfl⟩

lemma skeleton_propagateResultAt : ∀ (path : List Nat) (t : GTree) (v : Rat),
    skeleton (propagateResultAt t path v) = skeleton t := by
  intro path
  induction path with
  | nil =>
    intro t v
    cases t with
    | mk d cs => rfl
  | cons i rest ih =>
    intro t v
    cases t with
    | mk d cs =>
      show Skel.mk d.board d.isPassMove d.player
          (skeletonList (propagateChildren cs i rest (1 - v))) =
        Skel.mk d.board d.isPassMove d.player (skeletonList cs)
      congr 1
      induction cs generalizing i with
      | nil => rfl
      | cons c cs ihc =>
        cases i with
        | zero =>
          show skeleton (propagateResultAt c rest (1 - v)) :: skeletonList cs =
            skeleton c :: skeletonList cs
          rw [ih c (1 - v)]
        | succ i =>
          show skeleton c :: skeletonList (propagateChildren cs i rest (1 - v)) =
            skeleton c :: skeletonList cs
          rw [ihc i]

lemma childDataAt_propagateChildren (rest : List Nat) (v : Rat) (q' : List Nat)
    (hrec : ∀ (c : GTree), (∀ k, q' ≠ rest.take k) →
      nodeDataAt (propagateResultAt c rest v) q' = nodeDataAt c q') :
    ∀ (cs : List GTree) (i j : Nat), (j = i → ∀ k, q' ≠ rest.take k) →
      childDataAt (propagateChildren cs i rest v) j q' = childDataAt cs j q' := by
  intro cs
  induction cs with
  | nil =>
    intro i j _
    rfl
  | cons c cs ihc =>
    intro i j hj
    cases i with
    | zero =>
      cases j with
      | zero =>
        show nodeDataAt (propagateResultAt c rest v) q' = nodeDataAt c q'
        exact hrec c (hj rfl)
      | succ j => rfl
    | succ i =>
      cases j with
      | zero => rfl
      | succ j =>
        show childDataAt (propagateChildren cs i rest v) j q' = childDataAt cs j q'
        exact ihc i j (fun hij => hj (by rw [hij]))

/-- `propagateResult` leaves the data of every node that is not on the
propagation path (not a prefix of it) unchanged. -/
lemma nodeDataAt_propagateResultAt_off : ∀ (q path : List Nat) (t : GTree) (v : Rat),
    (∀ k, q ≠ path.take k) →
    nodeDataAt (propagateResultAt t path v) q = nodeDataAt t q := by
  intro q
  induction q with
  | nil =>
    intro path t v h
    exact absurd rfl (h 0)
  | cons j q' ih =>
    intro path t v h
    cases t with
    | mk d cs =>
      cases path with
      | nil =>
        show childDataAt cs j q' = childDataAt cs j q'
        rfl
      | cons i rest =>
        show childDataAt (propagateChildren cs i rest (1 - v)) j q' = childDataAt cs j q'
        refine childDataAt_propagateChildren rest (1 - v) q'
          (fun c hk => ih rest c (1 - v) hk) cs i j ?_
        rintro rfl k hk
        exact h (k + 1) (by rw [List.take_succ_cons, ← hk])

/-- C9: `playout` leaves every node's board snapshot, pass flag, player tag and
child-list structure unchanged (it simulates on a copy), and the only
statistics it changes are those of the addressed node and its ancestors: any
path whose statistics change is a prefix of the playout path. -/
theorem C9_playout_frame (t : GTree) (path : List Nat) (choices : Nat → Nat) :
    skeleton (playoutAt t path choices) = skeleton t ∧
    ∀ q : List Nat, statAt (playoutAt t path choices) q ≠ statAt t q →
      ∃ k, q = path.take k := by
  constructor
  · exact skeleton_propagateResultAt path t _
  · intro q hq
    by_contra hne
    push_neg at hne
    apply hq
    show ((nodeDataAt (propagateResultAt t path _) q).map fun d => (d.games, d.mean)) =
      (nodeDataAt t q).map fun d => (d.games, d.mean)
    rw [nodeDataAt_propagateResultAt_off q path t _ hne]

/-- Witness for C9 at a fresh root node with the empty playout path. -/
theorem C9_witness :
    skeleton (playoutAt (freshNode initialBoard Player.BLACK) [] (fun _ => 0)) =
      skeleton (freshNode initialBoard Player.BLACK) ∧
    (statAt (playoutAt (freshNode initialBoard Player.BLACK) [] (fun _ => 0)) [0] ≠
        statAt (freshNode initialBoard Player.BLACK) [0] →
      ∃ k, [0] = ([] : List Nat).take k) :=
  ⟨(C9_playout_frame (freshNode initialBoard Player.BLACK) [] (fun _ => 0)).1,
   (C9_playout_frame (freshNode initialBoard Player.BLACK) [] (fun _ => 0)).2 [0]⟩
